import Mathlib

/-!
# Verification of the import-graph extractor (src/src/main.rs)

A shallow embedding of the Rust program in src/src/main.rs: a source
analyzer that visits syntax-tree nodes to collect import/export facts of
one file (the ModuleFile visitor and its enter_node implementation), and
a graph builder (Project::traverse) that recursively follows import
sources, deduplicates by exact path string, and accumulates ModuleFile
records in post-order.

Modelling choices:
* The oxc parser is a black box.  A parsed file is modelled as the list of
  enter_node events the visitor receives, in document order, plus the
  list of diagnostic strings reported by the parser.
* The file system is a total function from path strings to a FileEntry
  describing what the corresponding system calls would do: the path does
  not exist, it exists but read_to_string fails, its dialect cannot be
  determined from the path, or it parses to a node stream.
* Rust panics (unwrap on an error or empty option) abort the process;
  they are modelled by the panic outcome of TResult, tagged with which
  unwrap fired.  Recursion is modelled with explicit fuel; fuelOut for
  every fuel amount corresponds to genuine non-termination of the Rust
  code.
* Every println of the program writes to standard output; output events
  record the stream so that claims about diagnostic/output stream
  separation can be stated.
-/

/-- Node kinds the visitor can receive, in document order.  The four
kinds of import node are the ones enter_node matches on; the two export kinds
and `other` stand for every node falling into the catch-all arm. -/
inductive AstKind where
  | importDeclaration (source : String)
  | importSpecifier (imported : String) (local_name : String)
  | importDefaultSpecifier (local_name : String)
  | importNamespaceSpecifier (local_name : String)
  | exportNamedDeclaration (exported : String)
  | exportDefaultDeclaration (exported : String)
  | other
deriving DecidableEq, Repr

/-- Rust struct ImportSpecifier: source_name and local_name. -/
structure ImportSpecifier where
  source_name : String
  local_name : String
deriving DecidableEq, Repr

/-- Rust struct ImportItem: the literal source module string and the
specifiers of one import declaration. -/
structure ImportItem where
  source : String
  specifiers : List ImportSpecifier
deriving DecidableEq, Repr

/-- Rust struct ModuleFile: the per-file fact record. -/
structure ModuleFile where
  path : String
  imports : List ImportItem
  exports : List String
  default_export : Option String
deriving DecidableEq, Repr

/-- The ModuleFile the traversal starts a file scan with: the path set to
the candidate path and every other field defaulted. -/
def initModule (path : String) : ModuleFile :=
  { path := path, imports := [], exports := [], default_export := none }

/-- Model of last_mut followed by an in-place update: replaces the last
element of the list by `f` applied to it; `none` models the unwrap panic
when the list is empty. -/
def modifyLast {α : Type} (f : α → α) : List α → Option (List α)
  | [] => none
  | [a] => some [f a]
  | a :: b :: rest => (modifyLast f (b :: rest)).map (fun l => a :: l)

/-- One step of the Visit implementation for ModuleFile (enter_node).
`none` models the panic of the unwrap on the last import record when a
specifier arrives with no import declaration opened yet. -/
def enter_node (m : ModuleFile) (k : AstKind) : Option ModuleFile :=
  match k with
  | .importDeclaration source =>
      some { m with imports := m.imports ++ [{ source := source, specifiers := [] }] }
  | .importSpecifier imported local_name =>
      (modifyLast (fun it =>
        { it with specifiers := it.specifiers ++ [{ source_name := imported, local_name := local_name }] })
        m.imports).map (fun is => { m with imports := is })
  | .importDefaultSpecifier local_name =>
      (modifyLast (fun it =>
        { it with specifiers := it.specifiers ++ [{ source_name := "default", local_name := local_name }] })
        m.imports).map (fun is => { m with imports := is })
  | .importNamespaceSpecifier local_name =>
      (modifyLast (fun it =>
        { it with specifiers := it.specifiers ++ [{ source_name := "*", local_name := local_name }] })
        m.imports).map (fun is => { m with imports := is })
  | _ => some m

/-- Model of visit_program: fold enter_node over the node events in
document order; `none` if any step panics. -/
def visitProgram (m : ModuleFile) (ks : List AstKind) : Option ModuleFile :=
  ks.foldlM enter_node m

/-- The import source strings of the declarations of a node stream, in
document order; used to state what the analyzer collects. -/
def declSources (ks : List AstKind) : List String :=
  ks.filterMap (fun k =>
    match k with
    | .importDeclaration s => some s
    | _ => none)

/-- Scan deciding well-formedness of a node stream: every specifier node
must be preceded (in document order) by some import declaration.
`hasDecl` records whether a declaration has been seen already. -/
def wfFrom (hasDecl : Bool) : List AstKind → Bool
  | [] => true
  | k :: rest =>
      match k with
      | .importDeclaration _ => wfFrom true rest
      | .importSpecifier _ _ => hasDecl && wfFrom hasDecl rest
      | .importDefaultSpecifier _ => hasDecl && wfFrom hasDecl rest
      | .importNamespaceSpecifier _ => hasDecl && wfFrom hasDecl rest
      | _ => wfFrom hasDecl rest

/-- A node stream is well formed when every import specifier node is
preceded in document order by an import declaration. -/
def wellFormedNodes (ks : List AstKind) : Bool := wfFrom false ks

/-- What the file system does for a given path string: the existence
check fails, read_to_string fails (IoFailure), the dialect cannot be
determined from the path (UnsupportedDialect), or the file parses to a
node-event stream with parser diagnostics. -/
inductive FileEntry where
  | missing
  | unreadable
  | badDialect
  | parsed (diags : List String) (nodes : List AstKind)

/-- The backing file system, as observed through existence checks, reads
and parsing. -/
def FileSys : Type := String → FileEntry

/-- Output streams of the process. -/
inductive OutStream where
  | stdout
  | stderr
deriving DecidableEq, Repr

/-- One observable output action of the run: a println of diagnostic
text, or the final serialized Project document. -/
inductive OutEvent where
  | diag (stream : OutStream) (msg : String)
  | projectDoc (stream : OutStream) (files : List ModuleFile)
deriving DecidableEq, Repr

/-- The stream an output event is written to. -/
def OutEvent.streamOf : OutEvent → OutStream
  | .diag s _ => s
  | .projectDoc s _ => s

/-- Whether an output event is the serialized Project document. -/
def OutEvent.isDoc : OutEvent → Bool
  | .diag _ _ => false
  | .projectDoc _ _ => true

/-- Which unwrap aborted the run. -/
inductive RunError where
  | ioFailure
  | unsupportedDialect
  | visitPanic
deriving DecidableEq, Repr

/-- Outcome of Project::traverse under a fuel bound: normal completion
with the accumulated file list and emitted events, a panic (with the
events emitted before it), or fuel exhaustion.  The Rust recursion is
unbounded; fuelOut at every fuel corresponds to non-termination. -/
inductive TResult where
  | ok (files : List ModuleFile) (out : List OutEvent)
  | panic (e : RunError) (out : List OutEvent)
  | fuelOut
deriving DecidableEq, Repr

/-- Prepend events to the output trace of a result. -/
def TResult.emit (evs : List OutEvent) : TResult → TResult
  | .ok fs out => .ok fs (evs ++ out)
  | .panic e out => .panic e (evs ++ out)
  | .fuelOut => .fuelOut

/-- The events a result has written. -/
def outOf : TResult → List OutEvent
  | .ok _ out => out
  | .panic _ out => out
  | .fuelOut => []

/-- Model of Project::traverse, with explicit fuel (one unit per call).
`proj` is the accumulated file list.  For each candidate path: skip when
a file with the exact same path string is already present; skip with a
stdout notice when the path does not exist; panic on read failure or
undeterminable dialect; otherwise print the parser diagnostics, visit
the program, recurse on the collected import sources, append the
resulting ModuleFile, and continue with the remaining paths. -/
def traverse (fs : FileSys) : Nat → List ModuleFile → List String → TResult
  | 0, _, _ => .fuelOut
  | _ + 1, proj, [] => .ok proj []
  | fuel + 1, proj, file :: rest =>
    if proj.any (fun f => f.path == file) then
      traverse fs fuel proj rest
    else
      match fs file with
      | .missing =>
          (traverse fs fuel proj rest).emit [.diag .stdout ("file not found: " ++ file)]
      | .unreadable => .panic .ioFailure []
      | .badDialect => .panic .unsupportedDialect []
      | .parsed diags nodes =>
          let diagEvents := diags.map (fun d => OutEvent.diag .stdout d)
          match visitProgram (initModule file) nodes with
          | none => .panic .visitPanic diagEvents
          | some mf =>
              match traverse fs fuel proj (mf.imports.map (fun i => i.source)) with
              | .fuelOut => .fuelOut
              | .panic e out => .panic e (diagEvents ++ out)
              | .ok proj2 out =>
                  ((traverse fs fuel (proj2 ++ [mf]) rest).emit (diagEvents ++ out))

/-- The import sources the traversal collects for a path, when the file
parses and the visit succeeds; `[]` otherwise. -/
def importSources (fs : FileSys) (file : String) : List String :=
  match fs file with
  | .parsed _ nodes =>
      match visitProgram (initModule file) nodes with
      | some mf => mf.imports.map (fun i => i.source)
      | none => []
  | _ => []

/-- Model of main: run the traversal from the entry list and, on normal
completion, print the serialized project document to stdout after all
diagnostics. -/
def mainOutput (fs : FileSys) (fuel : Nat) (entries : List String) : List OutEvent :=
  match traverse fs fuel [] entries with
  | .ok proj out => out ++ [.projectDoc .stdout proj]
  | .panic _ out => out
  | .fuelOut => []

/-- The paths of the accumulated file records. -/
def pathsOf (proj : List ModuleFile) : List String :=
  proj.map (fun f => f.path)

/-- An upper bound on the ranks of a list of paths. -/
def rankBound (rank : String → Nat) (files : List String) : Nat :=
  files.foldr (fun f acc => max (rank f) acc) 0

/-- Concrete file system: entry E.ts imports F.ts, which imports
nothing; every other path is absent. -/
def fsEF : FileSys := fun p =>
  if p = "E.ts" then .parsed [] [.importDeclaration "F.ts"]
  else if p = "F.ts" then .parsed [] []
  else .missing

/-- Rank function witnessing that the import graph of fsEF is acyclic. -/
def rankEF : String → Nat := fun p => if p = "E.ts" then 1 else 0

/-- Concrete file system: entry E.ts imports a path that does not
exist. -/
def fsMissingImport : FileSys := fun p =>
  if p = "E.ts" then .parsed [] [.importDeclaration "missing.ts"] else .missing

/-- Concrete file system with a two-file import cycle: A.ts imports
B.ts and B.ts imports A.ts. -/
def fsCycleAB : FileSys := fun p =>
  if p = "A.ts" then .parsed [] [.importDeclaration "B.ts"]
  else if p = "B.ts" then .parsed [] [.importDeclaration "A.ts"]
  else .missing

/-- The infinite first-import chain of the fsCycleAB cycle. -/
def cycleNext : Nat → String := fun i => if i % 2 = 0 then "A.ts" else "B.ts"

/-- Concrete file system: U.ts exists but its read fails. -/
def fsUnreadable : FileSys := fun p =>
  if p = "U.ts" then .unreadable else .missing

/-- Concrete file system: the dialect of D.txt cannot be determined from
its path. -/
def fsBadDialect : FileSys := fun p =>
  if p = "D.txt" then .badDialect else .missing

theorem visitProgram_nil (m : ModuleFile) : visitProgram m [] = some m := rfl

theorem visitProgram_cons (m : ModuleFile) (k : AstKind) (ks : List AstKind) :
    visitProgram m (k :: ks) = (enter_node m k).bind (fun m2 => visitProgram m2 ks) := by
  simp [visitProgram, List.foldlM]

theorem modifyLast_append {α : Type} (f : α → α) (pre : List α) (a : α) :
    modifyLast f (pre ++ [a]) = some (pre ++ [f a]) := by
  induction pre with
  | nil => rfl
  | cons b pre ih =>
    cases pre with
    | nil => rfl
    | cons c pre2 =>
      simp only [List.cons_append] at ih ⊢
      rw [modifyLast, ih]
      rfl

theorem modifyLast_map_eq {α β : Type} {f : α → α} (g : α → β) :
    ∀ (l l2 : List α), modifyLast f l = some l2 → (∀ a, g (f a) = g a) → l2.map g = l.map g
  | [], _, h, _ => by simp [modifyLast] at h
  | [a], l2, h, hf => by
      simp only [modifyLast, Option.some.injEq] at h
      subst h
      simp [hf]
  | a :: b :: rest, l2, h, hf => by
      simp only [modifyLast, Option.map_eq_some'] at h
      obtain ⟨l3, h3, rfl⟩ := h
      simp [modifyLast_map_eq g (b :: rest) l3 h3 hf]

theorem modifyLast_isSome {α : Type} (f : α → α) (l : List α) (h : l ≠ []) :
    (modifyLast f l).isSome = true := by
  obtain ⟨pre, a, rfl⟩ := (List.eq_nil_or_concat l).resolve_left h
  rw [List.concat_eq_append, modifyLast_append]
  rfl

theorem enter_node_preserves {m m2 : ModuleFile} {k : AstKind}
    (h : enter_node m k = some m2) :
    m2.path = m.path ∧ m2.exports = m.exports ∧ m2.default_export = m.default_export := by
  cases k with
  | importDeclaration s =>
      simp only [enter_node, Option.some.injEq] at h
      subst h
      exact ⟨rfl, rfl, rfl⟩
  | importSpecifier i l =>
      simp only [enter_node, Option.map_eq_some'] at h
      obtain ⟨is, _, rfl⟩ := h
      exact ⟨rfl, rfl, rfl⟩
  | importDefaultSpecifier l =>
      simp only [enter_node, Option.map_eq_some'] at h
      obtain ⟨is, _, rfl⟩ := h
      exact ⟨rfl, rfl, rfl⟩
  | importNamespaceSpecifier l =>
      simp only [enter_node, Option.map_eq_some'] at h
      obtain ⟨is, _, rfl⟩ := h
      exact ⟨rfl, rfl, rfl⟩
  | exportNamedDeclaration e =>
      simp only [enter_node, Option.some.injEq] at h
      subst h
      exact ⟨rfl, rfl, rfl⟩
  | exportDefaultDeclaration e =>
      simp only [enter_node, Option.some.injEq] at h
      subst h
      exact ⟨rfl, rfl, rfl⟩
  | other =>
      simp only [enter_node, Option.some.injEq] at h
      subst h
      exact ⟨rfl, rfl, rfl⟩

theorem visitProgram_preserves :
    ∀ (ks : List AstKind) (m m2 : ModuleFile), visitProgram m ks = some m2 →
      m2.path = m.path ∧ m2.exports = m.exports ∧ m2.default_export = m.default_export
  | [], m, m2, h => by
      simp only [visitProgram, List.foldlM, Option.pure_def, Option.some.injEq] at h
      subst h
      exact ⟨rfl, rfl, rfl⟩
  | k :: ks, m, m2, h => by
      rw [visitProgram_cons] at h
      obtain ⟨m1, h1, h2⟩ := Option.bind_eq_some.mp h
      have p1 := enter_node_preserves h1
      have p2 := visitProgram_preserves ks m1 m2 h2
      exact ⟨p2.1.trans p1.1, p2.2.1.trans p1.2.1, p2.2.2.trans p1.2.2⟩

theorem enter_node_sources {m m2 : ModuleFile} {k : AstKind}
    (h : enter_node m k = some m2) :
    m2.imports.map (fun i => i.source) =
      m.imports.map (fun i => i.source) ++ declSources [k] := by
  cases k with
  | importDeclaration s =>
      simp only [enter_node, Option.some.injEq] at h
      subst h
      simp [declSources]
  | importSpecifier i l =>
      simp only [enter_node, Option.map_eq_some'] at h
      obtain ⟨is, his, rfl⟩ := h
      simpa [declSources] using modifyLast_map_eq (fun (it : ImportItem) => it.source) _ _ his (fun a => rfl)
  | importDefaultSpecifier l =>
      simp only [enter_node, Option.map_eq_some'] at h
      obtain ⟨is, his, rfl⟩ := h
      simpa [declSources] using modifyLast_map_eq (fun (it : ImportItem) => it.source) _ _ his (fun a => rfl)
  | importNamespaceSpecifier l =>
      simp only [enter_node, Option.map_eq_some'] at h
      obtain ⟨is, his, rfl⟩ := h
      simpa [declSources] using modifyLast_map_eq (fun (it : ImportItem) => it.source) _ _ his (fun a => rfl)
  | exportNamedDeclaration e =>
      simp only [enter_node, Option.some.injEq] at h
      subst h
      simp [declSources]
  | exportDefaultDeclaration e =>
      simp only [enter_node, Option.some.injEq] at h
      subst h
      simp [declSources]
  | other =>
      simp only [enter_node, Option.some.injEq] at h
      subst h
      simp [declSources]

theorem visitProgram_sources :
    ∀ (ks : List AstKind) (m m2 : ModuleFile), visitProgram m ks = some m2 →
      m2.imports.map (fun i => i.source) = m.imports.map (fun i => i.source) ++ declSources ks
  | [], m, m2, h => by
      simp only [visitProgram, List.foldlM, Option.pure_def, Option.some.injEq] at h
      subst h
      simp [declSources]
  | k :: ks, m, m2, h => by
      rw [visitProgram_cons] at h
      obtain ⟨m1, h1, h2⟩ := Option.bind_eq_some.mp h
      have p1 := enter_node_sources h1
      have p2 := visitProgram_sources ks m1 m2 h2
      rw [p2, p1]
      simp [declSources]
      cases k <;> simp

theorem modifyLast_ne_nil {α : Type} {f : α → α} {l l2 : List α}
    (h : modifyLast f l = some l2) (hne : l ≠ []) : l2 ≠ [] := by
  have hm := modifyLast_map_eq (fun _ => (0 : Nat)) l l2 h (fun a => rfl)
  have hlen : l2.length = l.length := by
    have := congrArg List.length hm
    simpa using this
  intro h2
  apply hne
  rw [h2] at hlen
  exact List.length_eq_zero.mp hlen.symm

theorem wf_visit_aux :
    ∀ (ks : List AstKind) (b : Bool) (m : ModuleFile),
      wfFrom b ks = true → (b = true → m.imports ≠ []) →
      (visitProgram m ks).isSome = true
  | [], _, _, _, _ => rfl
  | k :: ks, b, m, hwf, hb => by
      rw [visitProgram_cons]
      cases k with
      | importDeclaration s =>
          rw [show enter_node m (.importDeclaration s) =
                some { m with imports := m.imports ++ [{ source := s, specifiers := [] }] } from rfl]
          rw [Option.some_bind]
          refine wf_visit_aux ks true _ ?_ (fun _ => by simp)
          simpa [wfFrom] using hwf
      | importSpecifier i l =>
          have hconj : b = true ∧ wfFrom b ks = true := by
            simpa [wfFrom, Bool.and_eq_true] using hwf
          have hne : m.imports ≠ [] := hb hconj.1
          obtain ⟨is, his⟩ := Option.isSome_iff_exists.mp (modifyLast_isSome _ _ hne)
          rw [show enter_node m (.importSpecifier i l) =
                (modifyLast (fun it =>
                  { it with specifiers := it.specifiers ++ [{ source_name := i, local_name := l }] })
                  m.imports).map (fun is => { m with imports := is }) from rfl]
          rw [his]
          simp only [Option.map_some', Option.some_bind]
          exact wf_visit_aux ks b _ hconj.2 (fun _ => modifyLast_ne_nil his hne)
      | importDefaultSpecifier l =>
          have hconj : b = true ∧ wfFrom b ks = true := by
            simpa [wfFrom, Bool.and_eq_true] using hwf
          have hne : m.imports ≠ [] := hb hconj.1
          obtain ⟨is, his⟩ := Option.isSome_iff_exists.mp (modifyLast_isSome _ _ hne)
          rw [show enter_node m (.importDefaultSpecifier l) =
                (modifyLast (fun it =>
                  { it with specifiers := it.specifiers ++ [{ source_name := "default", local_name := l }] })
                  m.imports).map (fun is => { m with imports := is }) from rfl]
          rw [his]
          simp only [Option.map_some', Option.some_bind]
          exact wf_visit_aux ks b _ hconj.2 (fun _ => modifyLast_ne_nil his hne)
      | importNamespaceSpecifier l =>
          have hconj : b = true ∧ wfFrom b ks = true := by
            simpa [wfFrom, Bool.and_eq_true] using hwf
          have hne : m.imports ≠ [] := hb hconj.1
          obtain ⟨is, his⟩ := Option.isSome_iff_exists.mp (modifyLast_isSome _ _ hne)
          rw [show enter_node m (.importNamespaceSpecifier l) =
                (modifyLast (fun it =>
                  { it with specifiers := it.specifiers ++ [{ source_name := "*", local_name := l }] })
                  m.imports).map (fun is => { m with imports := is }) from rfl]
          rw [his]
          simp only [Option.map_some', Option.some_bind]
          exact wf_visit_aux ks b _ hconj.2 (fun _ => modifyLast_ne_nil his hne)
      | exportNamedDeclaration e =>
          rw [show enter_node m (.exportNamedDeclaration e) = some m from rfl]
          rw [Option.some_bind]
          refine wf_visit_aux ks b m ?_ hb
          simpa [wfFrom] using hwf
      | exportDefaultDeclaration e =>
          rw [show enter_node m (.exportDefaultDeclaration e) = some m from rfl]
          rw [Option.some_bind]
          refine wf_visit_aux ks b m ?_ hb
          simpa [wfFrom] using hwf
      | other =>
          rw [show enter_node m AstKind.other = some m from rfl]
          rw [Option.some_bind]
          refine wf_visit_aux ks b m ?_ hb
          simpa [wfFrom] using hwf

/-- C4: the visitor maps each import construct as specified.  A
named import specifier appends a Specifier with the declared external name and
the local binding, a default import specifier appends one with
source_name "default"; a namespace import specifier appends one with
source_name "*"; each append targets the most recently opened
ImportItem.  Consequently the file
`import A, { b as c, d } from "m"; import * as ns from "n";` yields for
"m" the specifiers [default/A, b/c, d/d] in that order and for "n" the
specifier [*/ns]. -/
theorem c4_import_specifier_mapping :
    (∀ (m : ModuleFile) (pre : List ImportItem) (it : ImportItem) (i l : String),
        m.imports = pre ++ [it] →
        enter_node m (.importSpecifier i l) =
          some { m with imports :=
            pre ++ [{ it with specifiers := it.specifiers ++ [⟨i, l⟩] }] }) ∧
    (∀ (m : ModuleFile) (pre : List ImportItem) (it : ImportItem) (l : String),
        m.imports = pre ++ [it] →
        enter_node m (.importDefaultSpecifier l) =
          some { m with imports :=
            pre ++ [{ it with specifiers := it.specifiers ++ [⟨"default", l⟩] }] }) ∧
    (∀ (m : ModuleFile) (pre : List ImportItem) (it : ImportItem) (l : String),
        m.imports = pre ++ [it] →
        enter_node m (.importNamespaceSpecifier l) =
          some { m with imports :=
            pre ++ [{ it with specifiers := it.specifiers ++ [⟨"*", l⟩] }] }) ∧
    visitProgram (initModule "f.ts")
        [.importDeclaration "m", .importDefaultSpecifier "A", .importSpecifier "b" "c",
         .importSpecifier "d" "d", .importDeclaration "n", .importNamespaceSpecifier "ns"] =
      some { path := "f.ts",
             imports := [⟨"m", [⟨"default", "A"⟩, ⟨"b", "c"⟩, ⟨"d", "d"⟩]⟩,
                         ⟨"n", [⟨"*", "ns"⟩]⟩],
             exports := [], default_export := none } := by
  refine ⟨?_, ?_, ?_, by decide⟩
  · intro m pre it i l h
    simp only [enter_node, h, modifyLast_append, Option.map_some']
  · intro m pre it l h
    simp only [enter_node, h, modifyLast_append, Option.map_some']
  · intro m pre it l h
    simp only [enter_node, h, modifyLast_append, Option.map_some']

/-- Witness for C4: instantiates each of the three specifier-mapping
conjuncts on a concrete state holding one open import record. -/
theorem c4_import_specifier_mapping_witness :
    enter_node ⟨"f.ts", [⟨"m", []⟩], [], none⟩ (.importSpecifier "b" "c") =
        some ⟨"f.ts", [⟨"m", [⟨"b", "c"⟩]⟩], [], none⟩ ∧
    enter_node ⟨"f.ts", [⟨"m", []⟩], [], none⟩ (.importDefaultSpecifier "A") =
        some ⟨"f.ts", [⟨"m", [⟨"default", "A"⟩]⟩], [], none⟩ ∧
    enter_node ⟨"f.ts", [⟨"m", []⟩], [], none⟩ (.importNamespaceSpecifier "ns") =
        some ⟨"f.ts", [⟨"m", [⟨"*", "ns"⟩]⟩], [], none⟩ :=
  ⟨c4_import_specifier_mapping.1 ⟨"f.ts", [⟨"m", []⟩], [], none⟩ [] ⟨"m", []⟩ "b" "c" rfl,
   c4_import_specifier_mapping.2.1 ⟨"f.ts", [⟨"m", []⟩], [], none⟩ [] ⟨"m", []⟩ "A" rfl,
   c4_import_specifier_mapping.2.2.1 ⟨"f.ts", [⟨"m", []⟩], [], none⟩ [] ⟨"m", []⟩ "ns" rfl⟩

/-- C5 counterexample: a file whose node stream contains a named export
of "x" and a default export of "y" produces a fact record whose exports
list is empty (it does not contain "x") and whose default_export is
`none` (not set to "y"): the visitor has no arm for export nodes, so the
claim that export declarations populate the FileFact fails on the
code. -/
theorem c5_export_counterexample :
    (visitProgram (initModule "e.ts")
        [.exportNamedDeclaration "x", .exportDefaultDeclaration "y"]).map
      (fun m => m.exports) = some [] ∧
    (visitProgram (initModule "e.ts")
        [.exportNamedDeclaration "x", .exportDefaultDeclaration "y"]).map
      (fun m => m.default_export) = some none := by
  decide

/-- C5 amended: export declarations never populate the FileFact.  The
visitor matches only the four import node kinds, so for every analyzed
file the exports list stays empty and default_export stays `none`. -/
theorem c5_exports_never_populated (p : String) (ks : List AstKind) (mf : ModuleFile)
    (h : visitProgram (initModule p) ks = some mf) :
    mf.exports = [] ∧ mf.default_export = none := by
  have := visitProgram_preserves ks (initModule p) mf h
  exact ⟨this.2.1, this.2.2⟩

/-- Witness for the amended C5, at a concrete file containing a named
export and a default export. -/
theorem c5_exports_never_populated_witness :
    (initModule "e.ts").exports = [] ∧ (initModule "e.ts").default_export = none :=
  c5_exports_never_populated "e.ts"
    [.exportNamedDeclaration "x", .exportDefaultDeclaration "y"] (initModule "e.ts") rfl

/-- C9: each specifier is appended to the import record most recently
opened in the same file scan (the last element of the imports list), and
when every specifier node is preceded in document order by an import
declaration, the unwrap of the last import record never fires: the visit
returns a result for the whole stream. -/
theorem c9_last_record_unwrap_safe :
    (∀ (m : ModuleFile) (pre : List ImportItem) (it : ImportItem) (i l : String),
        m.imports = pre ++ [it] →
        ∃ m2, enter_node m (.importSpecifier i l) = some m2 ∧
          m2.imports = pre ++ [{ it with specifiers := it.specifiers ++ [⟨i, l⟩] }]) ∧
    (∀ (p : String) (ks : List AstKind),
        wellFormedNodes ks = true → (visitProgram (initModule p) ks).isSome = true) := by
  constructor
  · intro m pre it i l h
    refine ⟨{ m with imports := pre ++ [{ it with specifiers := it.specifiers ++ [⟨i, l⟩] }] }, ?_, rfl⟩
    simp only [enter_node, h, modifyLast_append, Option.map_some']
  · intro p ks hwf
    exact wf_visit_aux ks false (initModule p) hwf (fun hfalse => by cases hfalse)

/-- Witness for C9: the specifier append succeeds on a concrete state
with an open record, and a concrete well-formed stream is visited
without panicking. -/
theorem c9_last_record_unwrap_safe_witness :
    (∃ m2, enter_node ⟨"w.ts", [⟨"m", []⟩], [], none⟩ (.importSpecifier "a" "a") = some m2 ∧
        m2.imports = [{ source := "m", specifiers := [⟨"a", "a"⟩] }]) ∧
    (visitProgram (initModule "w.ts")
        [.importDeclaration "m", .importSpecifier "a" "a"]).isSome = true :=
  ⟨c9_last_record_unwrap_safe.1 ⟨"w.ts", [⟨"m", []⟩], [], none⟩ [] ⟨"m", []⟩ "a" "a" rfl,
   c9_last_record_unwrap_safe.2 "w.ts" [.importDeclaration "m", .importSpecifier "a" "a"] rfl⟩

/-- C10: import declarations are never deduplicated or merged within a
file: the import sources of the resulting record are exactly the
declaration sources of the node stream in document order, and two
declarations with the identical source string yield two separate
ImportItems. -/
theorem c10_imports_not_deduplicated :
    (∀ (p : String) (ks : List AstKind) (mf : ModuleFile),
        visitProgram (initModule p) ks = some mf →
        mf.imports.map (fun i => i.source) = declSources ks) ∧
    visitProgram (initModule "p.ts") [.importDeclaration "m", .importDeclaration "m"] =
      some { path := "p.ts", imports := [⟨"m", []⟩, ⟨"m", []⟩],
             exports := [], default_export := none } := by
  constructor
  · intro p ks mf h
    simpa [initModule] using visitProgram_sources ks (initModule p) mf h
  · decide

/-- Witness for C10: the source-list characterization applied to a
concrete file with two identical import declarations. -/
theorem c10_imports_not_deduplicated_witness :
    ({ path := "p.ts", imports := [⟨"m", []⟩, ⟨"m", []⟩],
       exports := [], default_export := none } : ModuleFile).imports.map (fun i => i.source) =
      declSources [.importDeclaration "m", .importDeclaration "m"] :=
  c10_imports_not_deduplicated.1 "p.ts" [.importDeclaration "m", .importDeclaration "m"] _ rfl

theorem traverse_zero {fs : FileSys} {proj : List ModuleFile} {files : List String} :
    traverse fs 0 proj files = .fuelOut := rfl

theorem traverse_nil {fs : FileSys} {fuel : Nat} {proj : List ModuleFile} :
    traverse fs (fuel + 1) proj [] = .ok proj [] := rfl

theorem traverse_dup {fs : FileSys} {fuel : Nat} {proj : List ModuleFile}
    {file : String} {rest : List String}
    (h : proj.any (fun f => f.path == file) = true) :
    traverse fs (fuel + 1) proj (file :: rest) = traverse fs fuel proj rest := by
  rw [traverse.eq_def]
  simp [h]

theorem traverse_missing {fs : FileSys} {fuel : Nat} {proj : List ModuleFile}
    {file : String} {rest : List String}
    (hdup : proj.any (fun f => f.path == file) = false)
    (hfs : fs file = .missing) :
    traverse fs (fuel + 1) proj (file :: rest) =
      (traverse fs fuel proj rest).emit [.diag .stdout ("file not found: " ++ file)] := by
  rw [traverse.eq_def]
  simp [hdup, hfs]

theorem traverse_unreadable {fs : FileSys} {fuel : Nat} {proj : List ModuleFile}
    {file : String} {rest : List String}
    (hdup : proj.any (fun f => f.path == file) = false)
    (hfs : fs file = .unreadable) :
    traverse fs (fuel + 1) proj (file :: rest) = .panic .ioFailure [] := by
  rw [traverse.eq_def]
  simp [hdup, hfs]

theorem traverse_badDialect {fs : FileSys} {fuel : Nat} {proj : List ModuleFile}
    {file : String} {rest : List String}
    (hdup : proj.any (fun f => f.path == file) = false)
    (hfs : fs file = .badDialect) :
    traverse fs (fuel + 1) proj (file :: rest) = .panic .unsupportedDialect [] := by
  rw [traverse.eq_def]
  simp [hdup, hfs]

theorem traverse_parsed_panic {fs : FileSys} {fuel : Nat} {proj : List ModuleFile}
    {file : String} {rest : List String} {diags : List String} {nodes : List AstKind}
    (hdup : proj.any (fun f => f.path == file) = false)
    (hfs : fs file = .parsed diags nodes)
    (hv : visitProgram (initModule file) nodes = none) :
    traverse fs (fuel + 1) proj (file :: rest) =
      .panic .visitPanic (diags.map (fun d => OutEvent.diag .stdout d)) := by
  rw [traverse.eq_def]
  simp [hdup, hfs, hv]

theorem traverse_parsed_inner_fuelOut {fs : FileSys} {fuel : Nat} {proj : List ModuleFile}
    {file : String} {rest : List String} {diags : List String} {nodes : List AstKind}
    {mf : ModuleFile}
    (hdup : proj.any (fun f => f.path == file) = false)
    (hfs : fs file = .parsed diags nodes)
    (hv : visitProgram (initModule file) nodes = some mf)
    (hin : traverse fs fuel proj (mf.imports.map (fun i => i.source)) = .fuelOut) :
    traverse fs (fuel + 1) proj (file :: rest) = .fuelOut := by
  rw [traverse.eq_def]
  simp [hdup, hfs, hv, hin]

theorem traverse_parsed_inner_panic {fs : FileSys} {fuel : Nat} {proj : List ModuleFile}
    {file : String} {rest : List String} {diags : List String} {nodes : List AstKind}
    {mf : ModuleFile} {e : RunError} {out : List OutEvent}
    (hdup : proj.any (fun f => f.path == file) = false)
    (hfs : fs file = .parsed diags nodes)
    (hv : visitProgram (initModule file) nodes = some mf)
    (hin : traverse fs fuel proj (mf.imports.map (fun i => i.source)) = .panic e out) :
    traverse fs (fuel + 1) proj (file :: rest) =
      .panic e (diags.map (fun d => OutEvent.diag .stdout d) ++ out) := by
  rw [traverse.eq_def]
  simp [hdup, hfs, hv, hin]

theorem traverse_parsed_inner_ok {fs : FileSys} {fuel : Nat} {proj : List ModuleFile}
    {file : String} {rest : List String} {diags : List String} {nodes : List AstKind}
    {mf : ModuleFile} {proj2 : List ModuleFile} {out : List OutEvent}
    (hdup : proj.any (fun f => f.path == file) = false)
    (hfs : fs file = .parsed diags nodes)
    (hv : visitProgram (initModule file) nodes = some mf)
    (hin : traverse fs fuel proj (mf.imports.map (fun i => i.source)) = .ok proj2 out) :
    traverse fs (fuel + 1) proj (file :: rest) =
      (traverse fs fuel (proj2 ++ [mf]) rest).emit
        (diags.map (fun d => OutEvent.diag .stdout d) ++ out) := by
  rw [traverse.eq_def]
  simp [hdup, hfs, hv, hin]

theorem emit_ne_fuelOut {evs : List OutEvent} {r : TResult}
    (h : r ≠ .fuelOut) : TResult.emit evs r ≠ .fuelOut := by
  cases r with
  | ok p o => intro h2; cases h2
  | panic e o => intro h2; cases h2
  | fuelOut => exact absurd rfl h

theorem emit_eq_fuelOut {evs : List OutEvent} {r : TResult}
    (h : TResult.emit evs r = .fuelOut) : r = .fuelOut := by
  cases r with
  | ok p o => cases h
  | panic e o => cases h
  | fuelOut => rfl

theorem traverse_mono (fs : FileSys) :
    ∀ (fuel fuel2 : Nat) (proj : List ModuleFile) (files : List String),
      fuel ≤ fuel2 → traverse fs fuel proj files ≠ .fuelOut →
      traverse fs fuel2 proj files = traverse fs fuel proj files := by
  intro fuel
  induction fuel with
  | zero =>
      intro fuel2 proj files _ hne
      exact absurd rfl hne
  | succ fuel ih =>
      intro fuel2 proj files hle hne
      obtain ⟨f2, rfl⟩ : ∃ f2, fuel2 = f2 + 1 := ⟨fuel2 - 1, by omega⟩
      have hle2 : fuel ≤ f2 := by omega
      cases files with
      | nil => rfl
      | cons file rest =>
          by_cases hdup : proj.any (fun f => f.path == file) = true
          · rw [traverse_dup hdup] at hne ⊢
            rw [traverse_dup hdup]
            exact ih f2 proj rest hle2 hne
          · have hdupf : proj.any (fun f => f.path == file) = false := by
              simpa using hdup
            cases hfs : fs file with
            | missing =>
                rw [traverse_missing hdupf hfs] at hne ⊢
                rw [traverse_missing hdupf hfs]
                have hne2 : traverse fs fuel proj rest ≠ .fuelOut :=
                  fun h => hne (by rw [h]; rfl)
                rw [ih f2 proj rest hle2 hne2]
            | unreadable =>
                rw [traverse_unreadable hdupf hfs, traverse_unreadable hdupf hfs]
            | badDialect =>
                rw [traverse_badDialect hdupf hfs, traverse_badDialect hdupf hfs]
            | parsed diags nodes =>
                cases hv : visitProgram (initModule file) nodes with
                | none =>
                    rw [traverse_parsed_panic hdupf hfs hv,
                        traverse_parsed_panic hdupf hfs hv]
                | some mf =>
                    cases hin : traverse fs fuel proj (mf.imports.map (fun i => i.source)) with
                    | fuelOut =>
                        rw [traverse_parsed_inner_fuelOut hdupf hfs hv hin] at hne
                        exact absurd rfl hne
                    | panic e out =>
                        have hinne : traverse fs fuel proj (mf.imports.map (fun i => i.source)) ≠ .fuelOut :=
                          fun h => by rw [hin] at h; cases h
                        have hin2 : traverse fs f2 proj (mf.imports.map (fun i => i.source)) = .panic e out := by
                          rw [ih f2 proj _ hle2 hinne, hin]
                        rw [traverse_parsed_inner_panic hdupf hfs hv hin2,
                            traverse_parsed_inner_panic hdupf hfs hv hin]
                    | ok proj2 out =>
                        have hinne : traverse fs fuel proj (mf.imports.map (fun i => i.source)) ≠ .fuelOut :=
                          fun h => by rw [hin] at h; cases h
                        have hin2 : traverse fs f2 proj (mf.imports.map (fun i => i.source)) = .ok proj2 out := by
                          rw [ih f2 proj _ hle2 hinne, hin]
                        rw [traverse_parsed_inner_ok hdupf hfs hv hin] at hne
                        have hcne : traverse fs fuel (proj2 ++ [mf]) rest ≠ .fuelOut :=
                          fun h => hne (by rw [h]; rfl)
                        rw [traverse_parsed_inner_ok hdupf hfs hv hin2,
                            traverse_parsed_inner_ok hdupf hfs hv hin,
                            ih f2 (proj2 ++ [mf]) rest hle2 hcne]

theorem traverse_ok_extends (fs : FileSys) :
    ∀ (fuel : Nat) (proj : List ModuleFile) (files : List String)
      (proj2 : List ModuleFile) (out : List OutEvent),
      traverse fs fuel proj files = .ok proj2 out → ∃ tail, proj2 = proj ++ tail := by
  intro fuel
  induction fuel with
  | zero =>
      intro proj files proj2 out h
      rw [traverse_zero] at h
      exact absurd h (by simp)
  | succ fuel ih =>
      intro proj files proj2 out h
      cases files with
      | nil =>
          rw [traverse_nil] at h
          injection h with h1 h2
          exact ⟨[], by simp [h1]⟩
      | cons file rest =>
          by_cases hdup : proj.any (fun f => f.path == file) = true
          · rw [traverse_dup hdup] at h
            exact ih proj rest proj2 out h
          · have hdupf : proj.any (fun f => f.path == file) = false := by simpa using hdup
            cases hfs : fs file with
            | missing =>
                rw [traverse_missing hdupf hfs] at h
                cases hr : traverse fs fuel proj rest with
                | ok p o =>
                    rw [hr] at h
                    injection h with h1 h2
                    obtain ⟨tail, rfl⟩ := ih proj rest p o hr
                    exact ⟨tail, h1.symm⟩
                | panic e o => rw [hr] at h; exact absurd h (by simp [TResult.emit])
                | fuelOut => rw [hr] at h; exact absurd h (by simp [TResult.emit])
            | unreadable =>
                rw [traverse_unreadable hdupf hfs] at h
                exact absurd h (by simp)
            | badDialect =>
                rw [traverse_badDialect hdupf hfs] at h
                exact absurd h (by simp)
            | parsed diags nodes =>
                cases hv : visitProgram (initModule file) nodes with
                | none =>
                    rw [traverse_parsed_panic hdupf hfs hv] at h
                    exact absurd h (by simp)
                | some mf =>
                    cases hin : traverse fs fuel proj (mf.imports.map (fun i => i.source)) with
                    | fuelOut =>
                        rw [traverse_parsed_inner_fuelOut hdupf hfs hv hin] at h
                        exact absurd h (by simp)
                    | panic e o =>
                        rw [traverse_parsed_inner_panic hdupf hfs hv hin] at h
                        exact absurd h (by simp)
                    | ok projMid out1 =>
                        rw [traverse_parsed_inner_ok hdupf hfs hv hin] at h
                        cases hr : traverse fs fuel (projMid ++ [mf]) rest with
                        | ok p o =>
                            rw [hr] at h
                            injection h with h1 h2
                            obtain ⟨tail1, rfl⟩ := ih proj _ projMid out1 hin
                            obtain ⟨tail2, rfl⟩ := ih _ rest p o hr
                            refine ⟨tail1 ++ mf :: tail2, ?_⟩
                            rw [← h1]
                            simp
                        | panic e o => rw [hr] at h; exact absurd h (by simp [TResult.emit])
                        | fuelOut => rw [hr] at h; exact absurd h (by simp [TResult.emit])

theorem traverse_out_stdout_diag (fs : FileSys) :
    ∀ (fuel : Nat) (proj : List ModuleFile) (files : List String) (ev : OutEvent),
      ev ∈ outOf (traverse fs fuel proj files) →
      ev.isDoc = false ∧ ev.streamOf = .stdout := by
  intro fuel
  induction fuel with
  | zero =>
      intro proj files ev h
      rw [traverse_zero] at h
      exact absurd h (by simp [outOf])
  | succ fuel ih =>
      intro proj files ev h
      cases files with
      | nil =>
          rw [traverse_nil] at h
          exact absurd h (by simp [outOf])
      | cons file rest =>
          by_cases hdup : proj.any (fun f => f.path == file) = true
          · rw [traverse_dup hdup] at h
            exact ih proj rest ev h
          · have hdupf : proj.any (fun f => f.path == file) = false := by simpa using hdup
            cases hfs : fs file with
            | missing =>
                rw [traverse_missing hdupf hfs] at h
                cases hr : traverse fs fuel proj rest with
                | ok p o =>
                    rw [hr] at h
                    simp only [TResult.emit, outOf, List.mem_append, List.mem_singleton] at h
                    rcases h with h | h
                    · subst h
                      exact ⟨rfl, rfl⟩
                    · exact ih proj rest ev (by rw [hr]; exact h)
                | panic e o =>
                    rw [hr] at h
                    simp only [TResult.emit, outOf, List.mem_append, List.mem_singleton] at h
                    rcases h with h | h
                    · subst h
                      exact ⟨rfl, rfl⟩
                    · exact ih proj rest ev (by rw [hr]; exact h)
                | fuelOut =>
                    rw [hr] at h
                    exact absurd h (by simp [TResult.emit, outOf])
            | unreadable =>
                rw [traverse_unreadable hdupf hfs] at h
                exact absurd h (by simp [outOf])
            | badDialect =>
                rw [traverse_badDialect hdupf hfs] at h
                exact absurd h (by simp [outOf])
            | parsed diags nodes =>
                cases hv : visitProgram (initModule file) nodes with
                | none =>
                    rw [traverse_parsed_panic hdupf hfs hv] at h
                    simp only [outOf, List.mem_map] at h
                    obtain ⟨d, _, rfl⟩ := h
                    exact ⟨rfl, rfl⟩
                | some mf =>
                    cases hin : traverse fs fuel proj (mf.imports.map (fun i => i.source)) with
                    | fuelOut =>
                        rw [traverse_parsed_inner_fuelOut hdupf hfs hv hin] at h
                        exact absurd h (by simp [outOf])
                    | panic e o =>
                        rw [traverse_parsed_inner_panic hdupf hfs hv hin] at h
                        simp only [outOf, List.mem_append, List.mem_map] at h
                        rcases h with ⟨d, _, rfl⟩ | h
                        · exact ⟨rfl, rfl⟩
                        · exact ih proj _ ev (by rw [hin]; exact h)
                    | ok projMid out1 =>
                        rw [traverse_parsed_inner_ok hdupf hfs hv hin] at h
                        cases hr : traverse fs fuel (projMid ++ [mf]) rest with
                        | ok p o =>
                            rw [hr] at h
                            simp only [TResult.emit, outOf, List.mem_append, List.mem_map] at h
                            rcases h with (⟨d, _, rfl⟩ | h) | h
                            · exact ⟨rfl, rfl⟩
                            · exact ih proj _ ev (by rw [hin]; exact h)
                            · exact ih _ rest ev (by rw [hr]; exact h)
                        | panic e o =>
                            rw [hr] at h
                            simp only [TResult.emit, outOf, List.mem_append, List.mem_map] at h
                            rcases h with (⟨d, _, rfl⟩ | h) | h
                            · exact ⟨rfl, rfl⟩
                            · exact ih proj _ ev (by rw [hin]; exact h)
                            · exact ih _ rest ev (by rw [hr]; exact h)
                        | fuelOut =>
                            rw [hr] at h
                            exact absurd h (by simp [TResult.emit, outOf])

/-- C2: result ordering is post-order by first discovery.  When a fresh
candidate file is processed, its record is appended only after the
recursion over its collected import sources has completed: the final
project extends the incoming one with first the records appended while
processing the imports, then the file's own record, then the records of
the remaining work list.  In particular, for entry E.ts importing the
existing file F.ts which imports nothing, the run yields exactly two
records with F's before E's. -/
theorem c2_postorder_first_discovery :
    (∀ (fs : FileSys) (fuel : Nat) (proj : List ModuleFile) (file : String)
        (rest : List String) (diags : List String) (nodes : List AstKind)
        (mf : ModuleFile) (projF : List ModuleFile) (out : List OutEvent),
        proj.any (fun f => f.path == file) = false →
        fs file = .parsed diags nodes →
        visitProgram (initModule file) nodes = some mf →
        traverse fs (fuel + 1) proj (file :: rest) = .ok projF out →
        ∃ tail1 out1 tail2 out2,
          traverse fs fuel proj (mf.imports.map (fun i => i.source)) =
            .ok (proj ++ tail1) out1 ∧
          traverse fs fuel (proj ++ tail1 ++ [mf]) rest =
            .ok (proj ++ tail1 ++ [mf] ++ tail2) out2 ∧
          projF = proj ++ tail1 ++ [mf] ++ tail2) ∧
    traverse fsEF 3 [] ["E.ts"] =
      .ok [⟨"F.ts", [], [], none⟩, ⟨"E.ts", [⟨"F.ts", []⟩], [], none⟩] [] := by
  constructor
  · intro fs fuel proj file rest diags nodes mf projF out hdup hfs hv h
    cases hin : traverse fs fuel proj (mf.imports.map (fun i => i.source)) with
    | fuelOut =>
        rw [traverse_parsed_inner_fuelOut hdup hfs hv hin] at h
        exact absurd h (by simp)
    | panic e o =>
        rw [traverse_parsed_inner_panic hdup hfs hv hin] at h
        exact absurd h (by simp)
    | ok projMid out1 =>
        obtain ⟨tail1, rfl⟩ := traverse_ok_extends fs fuel proj _ projMid out1 hin
        rw [traverse_parsed_inner_ok hdup hfs hv hin] at h
        cases hr : traverse fs fuel ((proj ++ tail1) ++ [mf]) rest with
        | ok p o =>
            rw [hr] at h
            injection h with h1 h2
            obtain ⟨tail2, rfl⟩ := traverse_ok_extends fs fuel _ rest p o hr
            exact ⟨tail1, out1, tail2, o, rfl, hr, h1.symm⟩
        | panic e o => rw [hr] at h; exact absurd h (by simp [TResult.emit])
        | fuelOut => rw [hr] at h; exact absurd h (by simp [TResult.emit])
  · decide

/-- Witness for C2: the post-order decomposition instantiated on the
concrete two-file system where E.ts imports F.ts. -/
theorem c2_postorder_first_discovery_witness :
    ∃ tail1 out1 tail2 out2,
      traverse fsEF 2 []
          ((⟨"E.ts", [⟨"F.ts", []⟩], [], none⟩ : ModuleFile).imports.map (fun i => i.source)) =
        .ok ([] ++ tail1) out1 ∧
      traverse fsEF 2 ([] ++ tail1 ++ [⟨"E.ts", [⟨"F.ts", []⟩], [], none⟩]) [] =
        .ok ([] ++ tail1 ++ [⟨"E.ts", [⟨"F.ts", []⟩], [], none⟩] ++ tail2) out2 ∧
      [(⟨"F.ts", [], [], none⟩ : ModuleFile), ⟨"E.ts", [⟨"F.ts", []⟩], [], none⟩] =
        [] ++ tail1 ++ [⟨"E.ts", [⟨"F.ts", []⟩], [], none⟩] ++ tail2 :=
  c2_postorder_first_discovery.1 fsEF 2 [] "E.ts" [] [] [.importDeclaration "F.ts"]
    ⟨"E.ts", [⟨"F.ts", []⟩], [], none⟩
    [⟨"F.ts", [], [], none⟩, ⟨"E.ts", [⟨"F.ts", []⟩], [], none⟩] []
    rfl rfl rfl (by decide)

/-- C6: a candidate path that does not exist is logged with a notice on
the diagnostic channel and skipped, and the run continues: the result of
the remaining work is unchanged except for the prepended notice.  On the
concrete system where entry E.ts imports the non-existent missing.ts,
the run completes with exactly one record (for E.ts) and the non-fatal
notice. -/
theorem c6_missing_file_skipped :
    (∀ (fs : FileSys) (fuel : Nat) (proj : List ModuleFile) (file : String)
        (rest : List String) (projR : List ModuleFile) (outR : List OutEvent),
        proj.any (fun f => f.path == file) = false →
        fs file = .missing →
        traverse fs fuel proj rest = .ok projR outR →
        traverse fs (fuel + 1) proj (file :: rest) =
          .ok projR (.diag .stdout ("file not found: " ++ file) :: outR)) ∧
    traverse fsMissingImport 3 [] ["E.ts"] =
      .ok [⟨"E.ts", [⟨"missing.ts", []⟩], [], none⟩]
        [.diag .stdout "file not found: missing.ts"] := by
  constructor
  · intro fs fuel proj file rest projR outR hdup hfs hrest
    rw [traverse_missing hdup hfs, hrest]
    rfl
  · decide

/-- Witness for C6: the skip-and-continue step instantiated on the
non-existent path missing.ts with an empty work list remaining. -/
theorem c6_missing_file_skipped_witness :
    traverse fsMissingImport 2 [] ["missing.ts"] =
      .ok [] [.diag .stdout ("file not found: " ++ "missing.ts")] :=
  c6_missing_file_skipped.1 fsMissingImport 1 [] "missing.ts" [] [] [] rfl rfl rfl

/-- C7: a candidate path that exists but cannot be read aborts the run
immediately with the IoFailure panic, a file whose dialect cannot be
determined aborts with the UnsupportedDialect panic, and an aborted run
produces no structured output: every event of the run's output is a
diagnostic, never the serialized Project document. -/
theorem c7_io_and_dialect_fatal :
    (∀ (fs : FileSys) (fuel : Nat) (proj : List ModuleFile) (file : String)
        (rest : List String),
        proj.any (fun f => f.path == file) = false →
        fs file = .unreadable →
        traverse fs (fuel + 1) proj (file :: rest) = .panic .ioFailure []) ∧
    (∀ (fs : FileSys) (fuel : Nat) (proj : List ModuleFile) (file : String)
        (rest : List String),
        proj.any (fun f => f.path == file) = false →
        fs file = .badDialect →
        traverse fs (fuel + 1) proj (file :: rest) = .panic .unsupportedDialect []) ∧
    (∀ (fs : FileSys) (fuel : Nat) (entries : List String) (e : RunError)
        (out : List OutEvent),
        traverse fs fuel [] entries = .panic e out →
        ∀ ev ∈ mainOutput fs fuel entries, ev.isDoc = false) := by
  refine ⟨?_, ?_, ?_⟩
  · intro fs fuel proj file rest hdup hfs
    exact traverse_unreadable hdup hfs
  · intro fs fuel proj file rest hdup hfs
    exact traverse_badDialect hdup hfs
  · intro fs fuel entries e out h ev hev
    rw [mainOutput, h] at hev
    exact (traverse_out_stdout_diag fs fuel [] entries ev (by rw [h]; exact hev)).1

/-- Witness for C7: the two fatal aborts on concrete file systems, and
the absence of a document event in the aborted run's output. -/
theorem c7_io_and_dialect_fatal_witness :
    traverse fsUnreadable 1 [] ["U.ts"] = .panic .ioFailure [] ∧
    traverse fsBadDialect 1 [] ["D.txt"] = .panic .unsupportedDialect [] ∧
    ∀ ev ∈ mainOutput fsUnreadable 1 ["U.ts"], ev.isDoc = false :=
  ⟨c7_io_and_dialect_fatal.1 fsUnreadable 0 [] "U.ts" [] rfl rfl,
   c7_io_and_dialect_fatal.2.1 fsBadDialect 0 [] "D.txt" [] rfl rfl,
   c7_io_and_dialect_fatal.2.2 fsUnreadable 1 ["U.ts"] .ioFailure []
     (c7_io_and_dialect_fatal.1 fsUnreadable 0 [] "U.ts" [] rfl rfl)⟩

/-- C8 counterexample: on the run where entry E.ts imports a missing
path, the "file not found" notice is written to standard output, the
very same stream that carries the serialized Project document, so
diagnostics are not on a stream separate from the structured output. -/
theorem c8_separate_stream_counterexample :
    mainOutput fsMissingImport 3 ["E.ts"] =
      [.diag .stdout "file not found: missing.ts",
       .projectDoc .stdout [⟨"E.ts", [⟨"missing.ts", []⟩], [], none⟩]] ∧
    OutEvent.streamOf (.diag .stdout "file not found: missing.ts") =
      OutEvent.streamOf
        (.projectDoc .stdout [⟨"E.ts", [⟨"missing.ts", []⟩], [], none⟩]) := by
  exact ⟨by decide, rfl⟩

/-- C8 amended: all diagnostics and the structured output go to the
same standard-output stream; every event the run writes is on stdout
(diagnostics simply precede the document). -/
theorem c8_single_stdout_stream (fs : FileSys) (fuel : Nat) (entries : List String)
    (ev : OutEvent) (h : ev ∈ mainOutput fs fuel entries) :
    ev.streamOf = .stdout := by
  rw [mainOutput] at h
  cases hr : traverse fs fuel [] entries with
  | ok proj out =>
      rw [hr] at h
      rcases List.mem_append.mp h with h2 | h2
      · exact (traverse_out_stdout_diag fs fuel [] entries ev (by rw [hr]; exact h2)).2
      · rw [List.mem_singleton.mp h2]
        rfl
  | panic e out =>
      rw [hr] at h
      exact (traverse_out_stdout_diag fs fuel [] entries ev (by rw [hr]; exact h)).2
  | fuelOut =>
      rw [hr] at h
      exact absurd h (by simp)

/-- Witness for the amended C8: the concrete notice event of the
missing-import run is on stdout. -/
theorem c8_single_stdout_stream_witness :
    OutEvent.streamOf (.diag .stdout "file not found: missing.ts") = .stdout :=
  c8_single_stdout_stream fsMissingImport 3 ["E.ts"]
    (.diag .stdout "file not found: missing.ts") (by decide)

theorem path_not_mem_of_any_false {proj : List ModuleFile} {file : String}
    (h : proj.any (fun f => f.path == file) = false) : file ∉ pathsOf proj := by
  intro hmem
  rw [pathsOf, List.mem_map] at hmem
  obtain ⟨f, hf, hfp⟩ := hmem
  have h2 : proj.any (fun f => f.path == file) = true :=
    List.any_eq_true.mpr ⟨f, hf, by simp [hfp]⟩
  rw [h] at h2
  cases h2

theorem any_true_of_path_mem {proj : List ModuleFile} {file : String}
    (h : file ∈ pathsOf proj) : proj.any (fun f => f.path == file) = true := by
  rw [pathsOf, List.mem_map] at h
  obtain ⟨f, hf, hfp⟩ := h
  exact List.any_eq_true.mpr ⟨f, hf, by simp [hfp]⟩

theorem importSources_parsed {fs : FileSys} {file : String} {diags : List String}
    {nodes : List AstKind} {mf : ModuleFile}
    (hfs : fs file = .parsed diags nodes)
    (hv : visitProgram (initModule file) nodes = some mf) :
    importSources fs file = mf.imports.map (fun i => i.source) := by
  simp [importSources, hfs, hv]

theorem traverse_ok_nodup_aux (fs : FileSys) (rank : String → Nat)
    (hR : ∀ p q, q ∈ importSources fs p → rank q < rank p) :
    ∀ (fuel : Nat) (proj : List ModuleFile) (files : List String)
      (proj2 : List ModuleFile) (out : List OutEvent),
      traverse fs fuel proj files = .ok proj2 out →
      ∃ tail, proj2 = proj ++ tail ∧
        (pathsOf tail).Nodup ∧
        ∀ p ∈ pathsOf tail, p ∉ pathsOf proj ∧ ∃ f0 ∈ files, rank p ≤ rank f0 := by
  intro fuel
  induction fuel with
  | zero =>
      intro proj files proj2 out h
      rw [traverse_zero] at h
      exact absurd h (by simp)
  | succ fuel ih =>
      intro proj files proj2 out h
      cases files with
      | nil =>
          rw [traverse_nil] at h
          injection h with h1 h2
          exact ⟨[], by simp [h1], by simp [pathsOf], by simp [pathsOf]⟩
      | cons file rest =>
          by_cases hdup : proj.any (fun f => f.path == file) = true
          · rw [traverse_dup hdup] at h
            obtain ⟨tail, rfl, hnd, hcond⟩ := ih proj rest proj2 out h
            refine ⟨tail, rfl, hnd, fun p hp => ?_⟩
            obtain ⟨hnot, f0, hf0, hle⟩ := hcond p hp
            exact ⟨hnot, f0, List.mem_cons_of_mem file hf0, hle⟩
          · have hdupf : proj.any (fun f => f.path == file) = false := by simpa using hdup
            cases hfs : fs file with
            | missing =>
                rw [traverse_missing hdupf hfs] at h
                cases hr : traverse fs fuel proj rest with
                | ok p o =>
                    rw [hr] at h
                    injection h with h1 h2
                    obtain ⟨tail, rfl, hnd, hcond⟩ := ih proj rest p o hr
                    refine ⟨tail, h1.symm, hnd, fun q hq => ?_⟩
                    obtain ⟨hnot, f0, hf0, hle⟩ := hcond q hq
                    exact ⟨hnot, f0, List.mem_cons_of_mem file hf0, hle⟩
                | panic e o => rw [hr] at h; exact absurd h (by simp [TResult.emit])
                | fuelOut => rw [hr] at h; exact absurd h (by simp [TResult.emit])
            | unreadable =>
                rw [traverse_unreadable hdupf hfs] at h
                exact absurd h (by simp)
            | badDialect =>
                rw [traverse_badDialect hdupf hfs] at h
                exact absurd h (by simp)
            | parsed diags nodes =>
                cases hv : visitProgram (initModule file) nodes with
                | none =>
                    rw [traverse_parsed_panic hdupf hfs hv] at h
                    exact absurd h (by simp)
                | some mf =>
                    have hpath : mf.path = file :=
                      (visitProgram_preserves nodes (initModule file) mf hv).1
                    have himp : ∀ q ∈ mf.imports.map (fun i => i.source),
                        rank q < rank file := by
                      intro q hq
                      exact hR file q (by rw [importSources_parsed hfs hv]; exact hq)
                    cases hin : traverse fs fuel proj (mf.imports.map (fun i => i.source)) with
                    | fuelOut =>
                        rw [traverse_parsed_inner_fuelOut hdupf hfs hv hin] at h
                        exact absurd h (by simp)
                    | panic e o =>
                        rw [traverse_parsed_inner_panic hdupf hfs hv hin] at h
                        exact absurd h (by simp)
                    | ok projMid out1 =>
                        rw [traverse_parsed_inner_ok hdupf hfs hv hin] at h
                        cases hr : traverse fs fuel (projMid ++ [mf]) rest with
                        | panic e o => rw [hr] at h; exact absurd h (by simp [TResult.emit])
                        | fuelOut => rw [hr] at h; exact absurd h (by simp [TResult.emit])
                        | ok p o =>
                            rw [hr] at h
                            injection h with h1 h2
                            obtain ⟨tail1, rfl, hnd1, hcond1⟩ :=
                              ih proj _ projMid out1 hin
                            obtain ⟨tail2, rfl, hnd2, hcond2⟩ :=
                              ih ((proj ++ tail1) ++ [mf]) rest p o hr
                            refine ⟨tail1 ++ mf :: tail2, ?_, ?_, ?_⟩
                            · rw [← h1]
                              simp
                            · have hfile_tail1 : file ∉ pathsOf tail1 := by
                                intro hmem
                                obtain ⟨_, f0, hf0, hle⟩ := hcond1 file hmem
                                exact absurd (lt_of_le_of_lt hle (himp f0 hf0))
                                  (lt_irrefl _)
                              have hfile_tail2 : file ∉ pathsOf tail2 := by
                                intro hmem
                                obtain ⟨hnot, _⟩ := hcond2 file hmem
                                apply hnot
                                simp [pathsOf, hpath]
                              have hdisj : ∀ a ∈ pathsOf tail1, a ∉ pathsOf tail2 := by
                                intro a ha hmem
                                obtain ⟨hnot, _⟩ := hcond2 a hmem
                                apply hnot
                                simp only [pathsOf, List.map_append, List.mem_append]
                                left
                                simp only [pathsOf] at ha
                                simp [ha]
                              have hsplit : pathsOf (tail1 ++ mf :: tail2) =
                                  pathsOf tail1 ++ file :: pathsOf tail2 := by
                                simp [pathsOf, hpath]
                              rw [hsplit, List.nodup_append]
                              refine ⟨hnd1, List.nodup_cons.mpr ⟨hfile_tail2, hnd2⟩, ?_⟩
                              intro a ha
                              rw [List.mem_cons]
                              rintro (rfl | hmem)
                              · exact hfile_tail1 ha
                              · exact hdisj a ha hmem
                            · intro q hq
                              have hsplit : pathsOf (tail1 ++ mf :: tail2) =
                                  pathsOf tail1 ++ file :: pathsOf tail2 := by
                                simp [pathsOf, hpath]
                              rw [hsplit, List.mem_append, List.mem_cons] at hq
                              rcases hq with hq | rfl | hq
                              · obtain ⟨hnot, f0, hf0, hle⟩ := hcond1 q hq
                                exact ⟨hnot, file, List.mem_cons_self file rest,
                                  le_of_lt (lt_of_le_of_lt hle (himp f0 hf0))⟩
                              · exact ⟨path_not_mem_of_any_false hdupf, q,
                                  List.mem_cons_self q rest, le_refl _⟩
                              · obtain ⟨hnot, f0, hf0, hle⟩ := hcond2 q hq
                                refine ⟨fun hmem => hnot ?_, f0,
                                  List.mem_cons_of_mem file hf0, hle⟩
                                simp only [pathsOf, List.map_append, List.mem_append]
                                left
                                left
                                simpa [pathsOf] using hmem

/-- C1: for every acyclic import graph (witnessed by a rank function
that strictly decreases along imports) and every entry list, a completed
traversal contains each path at most once, and the builder skips a
candidate path whose exact string already occurs among the accumulated
records before doing any file-system work on it. -/
theorem c1_unique_paths (fs : FileSys) (rank : String → Nat)
    (hacyclic : ∀ p q, q ∈ importSources fs p → rank q < rank p)
    (fuel : Nat) (entries : List String) (proj : List ModuleFile)
    (out : List OutEvent)
    (hrun : traverse fs fuel [] entries = .ok proj out) :
    (pathsOf proj).Nodup ∧
    ∀ (fuel2 : Nat) (acc : List ModuleFile) (file : String) (rest : List String),
      file ∈ pathsOf acc →
      traverse fs (fuel2 + 1) acc (file :: rest) = traverse fs fuel2 acc rest := by
  constructor
  · obtain ⟨tail, htail, hnd, _⟩ :=
      traverse_ok_nodup_aux fs rank hacyclic fuel [] entries proj out hrun
    rw [htail]
    simpa using hnd
  · intro fuel2 acc file rest hmem
    exact traverse_dup (any_true_of_path_mem hmem)

/-- Witness for C1: applied to the concrete acyclic system where
E.ts imports F.ts, with the rank function rankEF. -/
theorem c1_unique_paths_witness :
    (pathsOf [⟨"F.ts", [], [], none⟩, ⟨"E.ts", [⟨"F.ts", []⟩], [], none⟩]).Nodup ∧
    ∀ (fuel2 : Nat) (acc : List ModuleFile) (file : String) (rest : List String),
      file ∈ pathsOf acc →
      traverse fsEF (fuel2 + 1) acc (file :: rest) = traverse fsEF fuel2 acc rest := by
  apply c1_unique_paths fsEF rankEF ?_ 3 ["E.ts"] _ [] (by decide)
  intro p q hq
  by_cases hp : p = "E.ts"
  · subst hp
    have h2 : importSources fsEF "E.ts" = ["F.ts"] := rfl
    rw [h2] at hq
    obtain rfl := List.mem_singleton.mp hq
    decide
  · by_cases hp2 : p = "F.ts"
    · subst hp2
      have h2 : importSources fsEF "F.ts" = [] := rfl
      rw [h2] at hq
      cases hq
    · have h2 : importSources fsEF p = [] := by
        simp [importSources, fsEF, hp, hp2]
      rw [h2] at hq
      cases hq

theorem rankBound_cons_eq (rank : String → Nat) (f : String) (files : List String) :
    rankBound rank (f :: files) = max (rank f) (rankBound rank files) := rfl

theorem rankBound_lt_of_forall (rank : String → Nat) (r : Nat) :
    ∀ (q : String) (qs : List String), (∀ x ∈ q :: qs, rank x < r) →
      rankBound rank (q :: qs) < r := by
  intro q qs
  induction qs generalizing q with
  | nil =>
      intro h
      have h1 := h q (List.mem_cons_self q [])
      simpa [rankBound] using h1
  | cons q2 qs ih =>
      intro h
      have h1 : rank q < r := h q (List.mem_cons_self _ _)
      have h2 : rankBound rank (q2 :: qs) < r :=
        ih q2 (fun x hx => h x (List.mem_cons_of_mem q hx))
      rw [rankBound_cons_eq]
      exact max_lt h1 h2

theorem traverse_terminates_aux (fs : FileSys) (rank : String → Nat)
    (hR : ∀ p q, q ∈ importSources fs p → rank q < rank p) :
    ∀ (b n : Nat) (files : List String), rankBound rank files ≤ b →
      files.length ≤ n →
      ∃ N, ∀ (proj : List ModuleFile) (fuel : Nat), N ≤ fuel →
        traverse fs fuel proj files ≠ .fuelOut := by
  intro b
  induction b using Nat.strong_induction_on with
  | _ b ihb =>
    intro n
    induction n with
    | zero =>
        intro files hrb hlen
        have hnil : files = [] := List.length_eq_zero.mp (Nat.le_zero.mp hlen)
        subst hnil
        refine ⟨1, fun proj fuel hf => ?_⟩
        obtain ⟨f2, rfl⟩ : ∃ f2, fuel = f2 + 1 := ⟨fuel - 1, by omega⟩
        rw [traverse_nil]
        intro h
        cases h
    | succ n ihn =>
        intro files hrb hlen
        cases files with
        | nil =>
            refine ⟨1, fun proj fuel hf => ?_⟩
            obtain ⟨f2, rfl⟩ : ∃ f2, fuel = f2 + 1 := ⟨fuel - 1, by omega⟩
            rw [traverse_nil]
            intro h
            cases h
        | cons file rest =>
            have hrb_rest : rankBound rank rest ≤ b :=
              le_trans (le_max_right _ _) (by rw [← rankBound_cons_eq rank file rest]; exact hrb)
            obtain ⟨Nrest, hNrest⟩ := ihn rest hrb_rest (by simpa using Nat.le_of_succ_le_succ hlen)
            have hLbound : ∃ NL, ∀ (proj : List ModuleFile) (fuel : Nat), NL ≤ fuel →
                traverse fs fuel proj (importSources fs file) ≠ .fuelOut := by
              cases hL : importSources fs file with
              | nil =>
                  refine ⟨1, fun proj fuel hf => ?_⟩
                  obtain ⟨f2, rfl⟩ : ∃ f2, fuel = f2 + 1 := ⟨fuel - 1, by omega⟩
                  rw [traverse_nil]
                  intro h
                  cases h
              | cons q qs =>
                  have hlt : ∀ x ∈ q :: qs, rank x < rank file := by
                    intro x hx
                    exact hR file x (by rw [hL]; exact hx)
                  have hrbL : rankBound rank (q :: qs) < rank file :=
                    rankBound_lt_of_forall rank (rank file) q qs hlt
                  have hrf : rank file ≤ b :=
                    le_trans (le_max_left _ _) (by rw [← rankBound_cons_eq rank file rest]; exact hrb)
                  obtain ⟨NL, hNL⟩ :=
                    ihb (rankBound rank (q :: qs)) (lt_of_lt_of_le hrbL hrf)
                      (q :: qs).length (q :: qs) (le_refl _) (le_refl _)
                  exact ⟨NL, fun proj fuel hf => hNL proj fuel hf⟩
            obtain ⟨NL, hNL⟩ := hLbound
            refine ⟨max Nrest NL + 1, fun proj fuel hf => ?_⟩
            obtain ⟨f2, rfl⟩ : ∃ f2, fuel = f2 + 1 := ⟨fuel - 1, by omega⟩
            have hf2r : Nrest ≤ f2 := by omega
            have hf2L : NL ≤ f2 := by omega
            by_cases hdup : proj.any (fun f => f.path == file) = true
            · rw [traverse_dup hdup]
              exact hNrest proj f2 hf2r
            · have hdupf : proj.any (fun f => f.path == file) = false := by simpa using hdup
              cases hfs : fs file with
              | missing =>
                  rw [traverse_missing hdupf hfs]
                  exact emit_ne_fuelOut (hNrest proj f2 hf2r)
              | unreadable =>
                  rw [traverse_unreadable hdupf hfs]
                  intro h
                  cases h
              | badDialect =>
                  rw [traverse_badDialect hdupf hfs]
                  intro h
                  cases h
              | parsed diags nodes =>
                  cases hv : visitProgram (initModule file) nodes with
                  | none =>
                      rw [traverse_parsed_panic hdupf hfs hv]
                      intro h
                      cases h
                  | some mf =>
                      have hsrc := importSources_parsed hfs hv
                      cases hin : traverse fs f2 proj (mf.imports.map (fun i => i.source)) with
                      | fuelOut =>
                          exfalso
                          have hne := hNL proj f2 hf2L
                          rw [hsrc] at hne
                          exact hne hin
                      | panic e o =>
                          rw [traverse_parsed_inner_panic hdupf hfs hv hin]
                          intro h
                          cases h
                      | ok projMid out1 =>
                          rw [traverse_parsed_inner_ok hdupf hfs hv hin]
                          exact emit_ne_fuelOut (hNrest (projMid ++ [mf]) f2 hf2r)

theorem traverse_cycle_fuelOut (fs : FileSys) (nxt : Nat → String)
    (proj : List ModuleFile)
    (hfresh : ∀ i, proj.any (fun f => f.path == nxt i) = false)
    (hchain : ∀ i, ∃ diags nodes mf,
        fs (nxt i) = .parsed diags nodes ∧
        visitProgram (initModule (nxt i)) nodes = some mf ∧
        ∃ more, mf.imports.map (fun j => j.source) = nxt (i + 1) :: more) :
    ∀ (fuel i : Nat) (rest : List String),
      traverse fs fuel proj (nxt i :: rest) = .fuelOut := by
  intro fuel
  induction fuel with
  | zero =>
      intro i rest
      rfl
  | succ fuel ih =>
      intro i rest
      obtain ⟨diags, nodes, mf, hfs, hv, more, hsrc⟩ := hchain i
      apply traverse_parsed_inner_fuelOut (hfresh i) hfs hv
      rw [hsrc]
      exact ih (i + 1) more

theorem fsEF_acyclic : ∀ p q, q ∈ importSources fsEF p → rankEF q < rankEF p := by
  intro p q hq
  by_cases hp : p = "E.ts"
  · subst hp
    have h2 : importSources fsEF "E.ts" = ["F.ts"] := rfl
    rw [h2] at hq
    obtain rfl := List.mem_singleton.mp hq
    decide
  · by_cases hp2 : p = "F.ts"
    · subst hp2
      have h2 : importSources fsEF "F.ts" = [] := rfl
      rw [h2] at hq
      cases hq
    · have h2 : importSources fsEF p = [] := by
        simp [importSources, fsEF, hp, hp2]
      rw [h2] at hq
      cases hq

theorem fsCycleAB_chain : ∀ i, ∃ diags nodes mf,
    fsCycleAB (cycleNext i) = .parsed diags nodes ∧
    visitProgram (initModule (cycleNext i)) nodes = some mf ∧
    ∃ more, mf.imports.map (fun j => j.source) = cycleNext (i + 1) :: more := by
  intro i
  rcases Nat.mod_two_eq_zero_or_one i with h | h
  · have e1 : cycleNext i = "A.ts" := by simp [cycleNext, h]
    have h2 : ¬((i + 1) % 2 = 0) := by omega
    have e2 : cycleNext (i + 1) = "B.ts" := by simp [cycleNext, h2]
    rw [e1, e2]
    exact ⟨[], [.importDeclaration "B.ts"], ⟨"A.ts", [⟨"B.ts", []⟩], [], none⟩,
      rfl, rfl, [], rfl⟩
  · have h2 : ¬(i % 2 = 0) := by omega
    have e1 : cycleNext i = "B.ts" := by simp [cycleNext, h2]
    have h3 : (i + 1) % 2 = 0 := by omega
    have e2 : cycleNext (i + 1) = "A.ts" := by simp [cycleNext, h3]
    rw [e1, e2]
    exact ⟨[], [.importDeclaration "A.ts"], ⟨"B.ts", [⟨"A.ts", []⟩], [], none⟩,
      rfl, rfl, [], rfl⟩

/-- C3: on every finite acyclic import graph (witnessed by a rank
function that strictly drops along imports) the traversal terminates:
some fuel bound suffices for every accumulated state, so the recursion
depth is bounded along first-discovery order.  On a graph with a cycle
of mutually importing existing files reached by the traversal, the
traversal runs out of every fuel amount, i.e. the recursion never
terminates, because a file is recorded as visited only after its imports
have been fully processed. -/
theorem c3_terminates_iff_acyclic :
    (∀ (fs : FileSys) (rank : String → Nat),
        (∀ p q, q ∈ importSources fs p → rank q < rank p) →
        ∀ (files : List String) (proj : List ModuleFile),
          ∃ N, ∀ fuel, N ≤ fuel → traverse fs fuel proj files ≠ .fuelOut) ∧
    (∀ (fs : FileSys) (nxt : Nat → String) (proj : List ModuleFile),
        (∀ i, proj.any (fun f => f.path == nxt i) = false) →
        (∀ i, ∃ diags nodes mf,
            fs (nxt i) = .parsed diags nodes ∧
            visitProgram (initModule (nxt i)) nodes = some mf ∧
            ∃ more, mf.imports.map (fun j => j.source) = nxt (i + 1) :: more) →
        ∀ (fuel : Nat) (rest : List String),
          traverse fs fuel proj (nxt 0 :: rest) = .fuelOut) := by
  constructor
  · intro fs rank hR files proj
    obtain ⟨N, hN⟩ :=
      traverse_terminates_aux fs rank hR (rankBound rank files) files.length files
        (le_refl _) (le_refl _)
    exact ⟨N, fun fuel hf => hN proj fuel hf⟩
  · intro fs nxt proj hfresh hchain fuel rest
    exact traverse_cycle_fuelOut fs nxt proj hfresh hchain fuel 0 rest

/-- Witness for C3: the acyclic two-file system E.ts/F.ts admits a fuel
bound, while the mutual cycle A.ts/B.ts exhausts a fuel of 50. -/
theorem c3_terminates_iff_acyclic_witness :
    (∃ N, ∀ fuel, N ≤ fuel → traverse fsEF fuel [] ["E.ts"] ≠ .fuelOut) ∧
    traverse fsCycleAB 50 [] ["A.ts"] = .fuelOut :=
  ⟨c3_terminates_iff_acyclic.1 fsEF rankEF fsEF_acyclic ["E.ts"] [],
   c3_terminates_iff_acyclic.2 fsCycleAB cycleNext [] (fun _ => rfl)
     fsCycleAB_chain 50 []⟩
